import Mathlib

/-!
Verification of the Wurlitzer jukebox slot-mapping and fuzzy song-search
logic.  The definitions below are a shallow embedding of the JavaScript in
the repository (the slot-map construction loop, `norm`, `fuzzyScore`,
`findBestSong`, `computePlatzForSong`, and the slot-jump lookup), with
JavaScript numbers modelled as integers plus an explicit NaN value.
-/

/-- A JavaScript number restricted to the values this program manipulates:
NaN or a (finite) integer. -/
inductive JSNum where
  | nan : JSNum
  | int : Int → JSNum
deriving DecidableEq, Repr

/-- The possible JavaScript values of an album's `discs` field:
absent (`undefined`/`null`), the number NaN, a finite number, or a string. -/
inductive DiscsField where
  | missing : DiscsField
  | nan : DiscsField
  | num : Int → DiscsField
  | str : String → DiscsField
deriving DecidableEq, Repr

/-- An album record; only the `discs` field is read by the slot mapper. -/
structure Album where
  discs : DiscsField
deriving DecidableEq, Repr

/-- JavaScript whitespace as far as `Number`'s trimming is concerned
(space, tab, newline, carriage return, vertical tab, form feed). -/
def jsWhitespace (c : Char) : Bool :=
  c.toNat = 32 || c.toNat = 9 || c.toNat = 10 || c.toNat = 13 ||
    c.toNat = 11 || c.toNat = 12

/-- A decimal digit's value, if the character is one. -/
def charDigit? (c : Char) : Option Nat :=
  if 48 ≤ c.toNat ∧ c.toNat ≤ 57 then some (c.toNat - 48) else none

/-- Parse a non-empty run of decimal digits (most significant first). -/
def parseDigits : List Char → Nat → Option Nat
  | [], acc => some acc
  | c :: rest, acc =>
    match charDigit? c with
    | some d => parseDigits rest (acc * 10 + d)
    | none => none

/-- Parse an optionally signed decimal integer literal. -/
def parseIntChars : List Char → Option Int
  | [] => none
  | c :: rest =>
    if c = '-' then
      if rest = [] then none
      else (parseDigits rest 0).map (fun n => -(n : Int))
    else if c = '+' then
      if rest = [] then none
      else (parseDigits rest 0).map (fun n => (n : Int))
    else (parseDigits (c :: rest) 0).map (fun n => (n : Int))

/-- Model of `Number(s)` applied to a string (on the integer / non-numeric fragment
used here): surrounding whitespace is ignored, a whitespace-only string
gives 0, a decimal integer literal gives its value, anything else gives
NaN.  (Fractional, exponent and hex literals do not occur in `discs`
fields and are not modelled.) -/
def jsStringToNumber (s : String) : JSNum :=
  let t := ((s.data.dropWhile jsWhitespace).reverse.dropWhile
    jsWhitespace).reverse
  if t = [] then JSNum.int 0
  else
    match parseIntChars t with
    | some n => JSNum.int n
    | none => JSNum.nan

/-- Model of `Number(albums[i]?.discs || 1)`: a falsy `discs` value (missing, 0, NaN,
or the empty string) is replaced by 1 before the numeric coercion; a truthy
value is coerced with `Number`, which yields NaN on a non-numeric string. -/
def discsOr1 : DiscsField → JSNum
  | DiscsField.missing => JSNum.int 1
  | DiscsField.nan => JSNum.int 1
  | DiscsField.num n => if n = 0 then JSNum.int 1 else JSNum.int n
  | DiscsField.str s => if s = "" then JSNum.int 1 else jsStringToNumber s

/-- Model of `Math.max(1, x)`; NaN propagates. -/
def jsMax1 : JSNum → JSNum
  | JSNum.nan => JSNum.nan
  | JSNum.int n => JSNum.int (max 1 n)

/-- Model of `Math.min(2, x)`; NaN propagates. -/
def jsMin2 : JSNum → JSNum
  | JSNum.nan => JSNum.nan
  | JSNum.int n => JSNum.int (min 2 n)

/-- Model of `Math.min(2, Math.max(1, Number(albums[i]?.discs || 1)))`, the clamped
disc count used both by the slot-map construction and by
`computePlatzForSong`. -/
def discsClampedJS (d : DiscsField) : JSNum :=
  jsMin2 (jsMax1 (discsOr1 d))

/-- Number of iterations of `for (let j = 0; j < discs; j++)` for a given
bound: `j < NaN` is false, so NaN yields zero iterations; a negative bound
also yields zero. -/
def jsLoopCount : JSNum → Nat
  | JSNum.nan => 0
  | JSNum.int n => n.toNat

/-- The number of slots an album tries to consume. -/
def discsCountN (d : DiscsField) : Nat :=
  jsLoopCount (discsClampedJS d)

/-- The bound `const MAX_SLOTS = 100`. -/
def MAX_SLOTS : Nat := 100

theorem MAX_SLOTS_def : MAX_SLOTS = 100 := rfl

/-- The inner loop of the slot-map construction:
`for (let j = 0; j < discs && slot <= MAX_SLOTS; j++) slotToAlbum[slot++] = i;`.
The array is modelled as a function `Nat → Int` (`-1` = unassigned). -/
def innerLoop (i : Nat) : Nat → (Nat → Int) → Nat → (Nat → Int) × Nat
  | 0, f, slot => (f, slot)
  | Nat.succ k, f, slot =>
    if slot ≤ MAX_SLOTS then
      innerLoop i k (Function.update f slot (Int.ofNat i)) (slot + 1)
    else (f, slot)

/-- The two maps and the final slot cursor produced by the construction. -/
structure SlotMap where
  slotToAlbum : Nat → Int
  albumStartSlot : List Nat
  cursor : Nat

/-- The outer loop of the slot-map construction:
`for (let i = 0; i < albums.length; i++) { const discs = ...;
albumStartSlot[i] = slot; for (...) slotToAlbum[slot++] = i; }`. -/
def buildLoop : List Album → Nat → (Nat → Int) → List Nat → Nat → SlotMap
  | [], _, f, starts, slot => ⟨f, starts, slot⟩
  | a :: rest, i, f, starts, slot =>
    let p := innerLoop i (discsCountN a.discs) f slot
    buildLoop rest (i + 1) p.1 (starts ++ [slot]) p.2

/-- Model of `computeMaps(albums)`: `slotToAlbum` starts filled with `-1`,
`albumStartSlot` is built up in order, and the cursor starts at 1. -/
def computeMaps (albums : List Album) : SlotMap :=
  buildLoop albums 0 (fun _ => -1) [] 1

/-- How far one album advances the slot cursor (derived closed form of the
inner loop's effect on `slot`). -/
def advance (slot : Nat) (a : Album) : Nat :=
  if slot ≤ MAX_SLOTS then min (slot + discsCountN a.discs) (MAX_SLOTS + 1)
  else slot

/-- The sequence of start cursors handed to successive albums. -/
def startsFrom : List Album → Nat → List Nat
  | [], _ => []
  | a :: rest, slot => slot :: startsFrom rest (advance slot a)

/-- The slot-jump lookup (`goBtn` handler): reject a NaN or out-of-range
slot number, then look the slot up in the forward map; a `-1` entry is the
"unassigned" sentinel, reported as `none`. -/
def resolveSlot (m : SlotMap) (n : JSNum) : Option Nat :=
  match n with
  | JSNum.nan => none
  | JSNum.int k =>
    if k < 1 ∨ (Int.ofNat MAX_SLOTS) < k then none
    else
      let pos := m.slotToAlbum k.toNat
      if 0 ≤ pos then some pos.toNat else none

/-- A catalog entry after the loader's normalization:
`{ n: String(...), albumIndex: Number(...), disc: null | Number(...) }`. -/
structure Song where
  n : String
  albumIndex : JSNum
  disc : Option JSNum
deriving DecidableEq, Repr

/-- Result of `computePlatzForSong`: a slot (or `null`) plus the
approximation flag. -/
structure PlatzResult where
  slot : Option Nat
  approx : Bool
deriving DecidableEq, Repr

/-- Comparison `discsCount >= 2` on a JavaScript number; false for NaN. -/
def jsGE2 : JSNum → Bool
  | JSNum.nan => false
  | JSNum.int n => decide (2 ≤ n)

/-- Model of `computePlatzForSong(song)`: invalid or out-of-range `albumIndex` gives
`{slot: null}`; otherwise the start slot is looked up (`|| 0`), the disc
count clamped, and the entry's `disc` hint dispatched exactly as in the
source. -/
def computePlatzForSong (albums : List Album) (albumStartSlot : List Nat)
    (song : Song) : PlatzResult :=
  match song.albumIndex with
  | JSNum.nan => ⟨none, false⟩
  | JSNum.int i =>
    if i < 0 then ⟨none, false⟩
    else if albums.length ≤ i.toNat then ⟨none, false⟩
    else
      let start := (albumStartSlot.get? i.toNat).getD 0
      let discsCount :=
        discsClampedJS (((albums.get? i.toNat).map Album.discs).getD
          DiscsField.missing)
      if song.disc = some (JSNum.int 1) then ⟨some start, false⟩
      else if song.disc = some (JSNum.int 2) then
        if jsGE2 discsCount then ⟨some (min (start + 1) MAX_SLOTS), false⟩
        else ⟨some start, true⟩
      else
        if discsCount = JSNum.int 1 then ⟨some start, false⟩
        else ⟨some start, true⟩

-- ## Basic facts about the clamped disc count

theorem discsCountN_le_two (d : DiscsField) : discsCountN d ≤ 2 := by
  unfold discsCountN discsClampedJS jsMin2 jsMax1
  cases discsOr1 d with
  | nan => simp [jsLoopCount]
  | int n => simp only [jsLoopCount]; omega

theorem discsClampedJS_int_bounds (d : DiscsField) (n : Int)
    (h : discsClampedJS d = JSNum.int n) : 1 ≤ n ∧ n ≤ 2 := by
  cases hd : discsOr1 d with
  | nan => simp [discsClampedJS, jsMax1, jsMin2, hd] at h
  | int m =>
    simp only [discsClampedJS, jsMax1, jsMin2, hd, JSNum.int.injEq] at h
    omega

theorem jsGE2_iff_discsCountN (d : DiscsField) :
    jsGE2 (discsClampedJS d) = true ↔ 2 ≤ discsCountN d := by
  unfold discsCountN
  cases h : discsClampedJS d with
  | nan => simp [jsGE2, jsLoopCount]
  | int n =>
    have hb := discsClampedJS_int_bounds d n h
    simp only [jsGE2, jsLoopCount, decide_eq_true_eq]
    omega

-- ## The inner loop: closed forms for its cursor and its writes

theorem innerLoop_zero (i : Nat) (f : Nat → Int) (slot : Nat) :
    innerLoop i 0 f slot = (f, slot) := rfl

theorem innerLoop_succ (i k : Nat) (f : Nat → Int) (slot : Nat) :
    innerLoop i (k + 1) f slot =
      if slot ≤ MAX_SLOTS then
        innerLoop i k (Function.update f slot (Int.ofNat i)) (slot + 1)
      else (f, slot) := rfl

theorem innerLoop_snd (i : Nat) : ∀ (cnt : Nat) (f : Nat → Int) (slot : Nat),
    (innerLoop i cnt f slot).2 =
      if slot ≤ MAX_SLOTS then min (slot + cnt) (MAX_SLOTS + 1) else slot := by
  intro cnt
  induction cnt with
  | zero =>
    intro f slot
    rw [innerLoop_zero]
    rw [MAX_SLOTS_def]
    split
    · show slot = _
      omega
    · rfl
  | succ k ih =>
    intro f slot
    by_cases h : slot ≤ MAX_SLOTS
    · rw [innerLoop_succ, if_pos h, ih]
      rw [MAX_SLOTS_def] at h ⊢
      split <;> omega
    · rw [innerLoop_succ, if_neg h, if_neg h]

theorem innerLoop_le (i cnt : Nat) (f : Nat → Int) (slot : Nat) :
    slot ≤ (innerLoop i cnt f slot).2 := by
  rw [innerLoop_snd]
  rw [MAX_SLOTS_def]
  split <;> omega

theorem innerLoop_snd_le (i cnt : Nat) (f : Nat → Int) (slot : Nat)
    (h : slot ≤ MAX_SLOTS + 1) : (innerLoop i cnt f slot).2 ≤ MAX_SLOTS + 1 := by
  rw [innerLoop_snd]
  rw [MAX_SLOTS_def] at h ⊢
  split <;> omega

theorem innerLoop_fst (i : Nat) : ∀ (cnt : Nat) (f : Nat → Int) (slot s : Nat),
    (innerLoop i cnt f slot).1 s =
      if slot ≤ s ∧ s < (innerLoop i cnt f slot).2 then Int.ofNat i
      else f s := by
  intro cnt
  induction cnt with
  | zero =>
    intro f slot s
    rw [innerLoop_zero]
    show f s = if slot ≤ s ∧ s < slot then Int.ofNat i else f s
    rw [if_neg (by omega)]
  | succ k ih =>
    intro f slot s
    by_cases h : slot ≤ MAX_SLOTS
    · have hle : slot + 1 ≤
          (innerLoop i k (Function.update f slot (Int.ofNat i)) (slot + 1)).2 :=
        innerLoop_le i k _ (slot + 1)
      rw [innerLoop_succ, if_pos h, ih]
      by_cases hs : s = slot
      · subst hs
        rw [if_neg (by omega), Function.update_same,
          if_pos ⟨le_refl s, by omega⟩]
      · rw [Function.update_noteq hs]
        have hss : s ≠ slot := hs
        split_ifs with h1 h2
        · rfl
        · exfalso; omega
        · exfalso; omega
        · rfl
    · rw [innerLoop_succ, if_neg h]
      show f s = if slot ≤ s ∧ s < slot then Int.ofNat i else f s
      rw [if_neg (by omega)]

-- ## The outer loop

theorem buildLoop_nil (i : Nat) (f : Nat → Int) (starts : List Nat)
    (slot : Nat) : buildLoop [] i f starts slot = ⟨f, starts, slot⟩ := rfl

theorem buildLoop_cons (a : Album) (rest : List Album) (i : Nat)
    (f : Nat → Int) (starts : List Nat) (slot : Nat) :
    buildLoop (a :: rest) i f starts slot =
      buildLoop rest (i + 1) (innerLoop i (discsCountN a.discs) f slot).1
        (starts ++ [slot]) (innerLoop i (discsCountN a.discs) f slot).2 := rfl

theorem innerLoop_snd_advance (i : Nat) (a : Album) (f : Nat → Int)
    (slot : Nat) :
    (innerLoop i (discsCountN a.discs) f slot).2 = advance slot a := by
  rw [innerLoop_snd, advance]

theorem advance_ge (slot : Nat) (a : Album) : slot ≤ advance slot a := by
  rw [advance, MAX_SLOTS_def]
  split <;> omega

theorem advance_le (slot : Nat) (a : Album) (h : slot ≤ MAX_SLOTS + 1) :
    advance slot a ≤ MAX_SLOTS + 1 := by
  rw [advance, MAX_SLOTS_def] at *
  split <;> omega

theorem buildLoop_starts :
    ∀ (albums : List Album) (i : Nat) (f : Nat → Int) (starts : List Nat)
      (slot : Nat),
    (buildLoop albums i f starts slot).albumStartSlot =
      starts ++ startsFrom albums slot := by
  intro albums
  induction albums with
  | nil => intro i f starts slot; simp [buildLoop_nil, startsFrom]
  | cons a rest ih =>
    intro i f starts slot
    rw [buildLoop_cons, ih, innerLoop_snd_advance, startsFrom,
      List.append_assoc, List.singleton_append]

theorem startsFrom_length (albums : List Album) :
    ∀ slot : Nat, (startsFrom albums slot).length = albums.length := by
  induction albums with
  | nil => intro slot; rfl
  | cons a rest ih => intro slot; simp [startsFrom, ih]

theorem startsFrom_ge (albums : List Album) :
    ∀ (slot : Nat) (j : Nat) (st : Nat),
      (startsFrom albums slot).get? j = some st → slot ≤ st := by
  induction albums with
  | nil => intro slot j st h; simp [startsFrom] at h
  | cons a rest ih =>
    intro slot j st h
    cases j with
    | zero =>
      simp [startsFrom] at h
      omega
    | succ j' =>
      simp only [startsFrom, List.get?_cons_succ] at h
      have := ih (advance slot a) j' st h
      have := advance_ge slot a
      omega

theorem buildLoop_preserve :
    ∀ (albums : List Album) (i : Nat) (f : Nat → Int) (starts : List Nat)
      (slot s : Nat),
    slot ≤ MAX_SLOTS + 1 → (s < slot ∨ MAX_SLOTS < s) →
    (buildLoop albums i f starts slot).slotToAlbum s = f s := by
  intro albums
  induction albums with
  | nil => intro i f starts slot s _ _; rfl
  | cons a rest ih =>
    intro i f starts slot s hle hs
    rw [buildLoop_cons]
    have h2 := innerLoop_snd_le i (discsCountN a.discs) f slot hle
    have h3 := innerLoop_le i (discsCountN a.discs) f slot
    rw [ih (i + 1) _ _ _ s h2 (by omega)]
    rw [innerLoop_fst]
    rw [if_neg (by omega)]

theorem buildLoop_hit :
    ∀ (albums : List Album) (i : Nat) (f : Nat → Int) (starts : List Nat)
      (slot : Nat) (j : Nat) (a : Album) (st : Nat),
    slot ≤ MAX_SLOTS + 1 →
    albums.get? j = some a →
    (startsFrom albums slot).get? j = some st →
    st ≤ MAX_SLOTS → 1 ≤ discsCountN a.discs →
    (buildLoop albums i f starts slot).slotToAlbum st = Int.ofNat (i + j) := by
  intro albums
  induction albums with
  | nil => intro i f starts slot j alb st _ h; simp at h
  | cons b rest ih =>
    intro i f starts slot j alb st hle hget hst hstle hcnt
    cases j with
    | zero =>
      simp only [List.get?_cons_zero, Option.some.injEq] at hget
      simp only [startsFrom, List.get?_cons_zero, Option.some.injEq] at hst
      subst hget
      subst hst
      rw [buildLoop_cons]
      have hsnd := innerLoop_snd_advance i b f slot
      have hadv : slot < advance slot b := by
        rw [advance]
        rw [if_pos hstle]
        omega
      have hadv2 : slot < (innerLoop i (discsCountN b.discs) f slot).2 := by
        rw [hsnd]; exact hadv
      have h2 : (innerLoop i (discsCountN b.discs) f slot).2 ≤ MAX_SLOTS + 1 :=
        innerLoop_snd_le i _ f slot (by omega)
      rw [buildLoop_preserve rest (i + 1) _ _ _ slot h2 (Or.inl hadv2)]
      rw [innerLoop_fst, if_pos ⟨le_refl slot, hadv2⟩]
      simp
    | succ j' =>
      simp only [List.get?_cons_succ] at hget
      simp only [startsFrom, List.get?_cons_succ] at hst
      rw [buildLoop_cons]
      rw [innerLoop_snd_advance]
      have hres := ih (i + 1) (innerLoop i (discsCountN b.discs) f slot).1
        (starts ++ [slot]) (advance slot b) j' alb st
        (advance_le slot b hle) hget hst hstle hcnt
      rw [hres]
      congr 1
      omega

theorem buildLoop_writes :
    ∀ (albums : List Album) (i : Nat) (f : Nat → Int) (starts : List Nat)
      (slot s : Nat),
    slot ≤ MAX_SLOTS + 1 →
    (buildLoop albums i f starts slot).slotToAlbum s = f s ∨
    ∃ j st, j < albums.length ∧ (startsFrom albums slot).get? j = some st ∧
      st ≤ MAX_SLOTS ∧ st ≤ s ∧ s ≤ MAX_SLOTS ∧
      (buildLoop albums i f starts slot).slotToAlbum s = Int.ofNat (i + j) := by
  intro albums
  induction albums with
  | nil => intro i f starts slot s _; left; rfl
  | cons a rest ih =>
    intro i f starts slot s hle
    rw [buildLoop_cons]
    have h2 := innerLoop_snd_le i (discsCountN a.discs) f slot hle
    have h3 := innerLoop_le i (discsCountN a.discs) f slot
    have hsnd := innerLoop_snd_advance i a f slot
    rcases ih (i + 1) _ (starts ++ [slot]) _ s h2 with hcase | ⟨j, st, hj, hget, h4, h5, h6, h7⟩
    · rw [hcase, innerLoop_fst]
      by_cases hwr : slot ≤ s ∧ s < (innerLoop i (discsCountN a.discs) f slot).2
      · right
        refine ⟨0, slot, by simp, ?_, ?_, hwr.1, by omega, ?_⟩
        · simp [startsFrom]
        · by_contra hgt
          have : (innerLoop i (discsCountN a.discs) f slot).2 = slot := by
            rw [innerLoop_snd, if_neg (by omega)]
          omega
        · rw [if_pos hwr]
          simp
      · left
        rw [if_neg hwr]
    · right
      refine ⟨j + 1, st, by simp; omega, ?_, h4, h5, h6, ?_⟩
      · rw [startsFrom, List.get?_cons_succ, ← hsnd]
        exact hget
      · rw [h7]
        congr 1
        omega

-- ## Corollaries at the `computeMaps` level

theorem computeMaps_starts (albums : List Album) :
    (computeMaps albums).albumStartSlot = startsFrom albums 1 := by
  rw [computeMaps, buildLoop_starts, List.nil_append]

theorem computeMaps_starts_length (albums : List Album) :
    (computeMaps albums).albumStartSlot.length = albums.length := by
  rw [computeMaps_starts, startsFrom_length]

theorem computeMaps_starts_pos (albums : List Album) (j st : Nat)
    (h : (computeMaps albums).albumStartSlot.get? j = some st) : 1 ≤ st := by
  rw [computeMaps_starts] at h
  exact startsFrom_ge albums 1 j st h

/-- Claim C2: after the slot map is built,
`slotToAlbum[albumStartSlot[i]] == i` for every album index `i` that
received at least one slot, i.e. whose start cursor is still within
`[1, MAX_SLOTS]` and whose clamped disc count is at least 1. -/
theorem slotToAlbum_at_startSlot (albums : List Album) (j : Nat) (alb : Album)
    (st : Nat) (hget : albums.get? j = some alb)
    (hst : (computeMaps albums).albumStartSlot.get? j = some st)
    (hin : st ≤ MAX_SLOTS) (hcnt : 1 ≤ discsCountN alb.discs) :
    (computeMaps albums).slotToAlbum st = Int.ofNat j := by
  rw [computeMaps_starts] at hst
  have h := buildLoop_hit albums 0 (fun _ => -1) [] 1 j alb st
    (by rw [MAX_SLOTS_def]; omega) hget hst hin hcnt
  rw [computeMaps]
  simpa using h

/-- Witness for C2 on a concrete album sequence: with albums
`[{discs:1},{discs:2}]`, album 1 starts at slot 2 and `slotToAlbum[2] = 1`. -/
theorem slotToAlbum_at_startSlot_witness :
    (computeMaps [⟨DiscsField.num 1⟩, ⟨DiscsField.num 2⟩]).slotToAlbum 2 =
      Int.ofNat 1 :=
  slotToAlbum_at_startSlot [⟨DiscsField.num 1⟩, ⟨DiscsField.num 2⟩] 1
    ⟨DiscsField.num 2⟩ 2 (by decide) (by decide) (by decide) (by decide)

/-- Claim C4: every forward-map entry that was written lies at a slot in
`[1, MAX_SLOTS]`, and an album whose start cursor exceeded `MAX_SLOTS`
receives no forward-map entry at all (overflow is silently truncated). -/
theorem slotMap_truncated (albums : List Album) :
    (∀ s : Nat, (computeMaps albums).slotToAlbum s ≠ -1 →
      1 ≤ s ∧ s ≤ MAX_SLOTS) ∧
    (∀ j st : Nat, (computeMaps albums).albumStartSlot.get? j = some st →
      MAX_SLOTS < st →
      ∀ s : Nat, (computeMaps albums).slotToAlbum s ≠ Int.ofNat j) := by
  constructor
  · intro s hne
    rcases buildLoop_writes albums 0 (fun _ => -1) [] 1 s
        (by rw [MAX_SLOTS_def]; omega) with hc | ⟨j, st, hj, hget, h4, h5, h6, h7⟩
    · rw [computeMaps] at hne
      exact absurd hc hne
    · have hge := startsFrom_ge albums 1 j st hget
      exact ⟨by omega, h6⟩
  · intro j st hget hgt s heq
    rw [computeMaps_starts] at hget
    rw [computeMaps, Int.ofNat_eq_natCast] at heq
    rcases buildLoop_writes albums 0 (fun _ => -1) [] 1 s
        (by rw [MAX_SLOTS_def]; omega) with hc | ⟨j', st', hj', hget', h4, h5, h6, h7⟩
    · have hbad : (-1 : Int) = (j : Int) := hc.symm.trans heq
      omega
    · rw [Int.ofNat_eq_natCast] at h7
      rw [h7] at heq
      have hjj : j' = j := by omega
      subst hjj
      rw [hget'] at hget
      have : st' = st := by injection hget
      omega

set_option maxRecDepth 8000 in
/-- Witness for C4: with 51 two-disc albums, album 50's start cursor is 101,
past the bound, and no slot (e.g. slot 100) maps to it; slot 1 was written
and lies in `[1, MAX_SLOTS]`. -/
theorem slotMap_truncated_witness :
    (1 ≤ 1 ∧ 1 ≤ MAX_SLOTS) ∧
    (computeMaps (List.replicate 51 ⟨DiscsField.num 2⟩)).slotToAlbum 100 ≠
      Int.ofNat 50 :=
  ⟨(slotMap_truncated (List.replicate 51 ⟨DiscsField.num 2⟩)).1 1 (by decide),
   (slotMap_truncated (List.replicate 51 ⟨DiscsField.num 2⟩)).2 50 101
     (by decide) (by decide) 100⟩

-- ## Claim C9: the slot-jump lookup degrades to the sentinel

theorem resolveSlot_int (m : SlotMap) (k : Int) :
    resolveSlot m (JSNum.int k) =
      if k < 1 ∨ (Int.ofNat MAX_SLOTS) < k then none
      else if 0 ≤ m.slotToAlbum k.toNat then some (m.slotToAlbum k.toNat).toNat
      else none := rfl

/-- Claim C9: for every built slot map, the slot-jump lookup returns the
"unassigned" sentinel (and never throws — it is a total function) when its
argument is NaN, below 1, above `MAX_SLOTS`, or lands on a slot no album was
assigned to. -/
theorem resolveSlot_sentinel (albums : List Album) (n : JSNum)
    (h : n = JSNum.nan ∨
      (∃ k : Int, n = JSNum.int k ∧ (k < 1 ∨ Int.ofNat MAX_SLOTS < k)) ∨
      (∃ k : Int, n = JSNum.int k ∧ 1 ≤ k ∧ k ≤ Int.ofNat MAX_SLOTS ∧
        (computeMaps albums).slotToAlbum k.toNat = -1)) :
    resolveSlot (computeMaps albums) n = none := by
  rcases h with rfl | ⟨k, rfl, hk⟩ | ⟨k, rfl, hk1, hk2, hun⟩
  · rfl
  · rw [resolveSlot_int, if_pos hk]
  · rw [resolveSlot_int, if_neg (by omega), hun, if_neg (by decide)]

/-- Witness for C9: `resolveSlot(0)` and `resolveSlot(101)` return the
sentinel (boundary exclusion at both ends of `[1, 100]`), as does a lookup
of an in-range but unassigned slot and of NaN. -/
theorem resolveSlot_sentinel_witness :
    resolveSlot (computeMaps [⟨DiscsField.num 1⟩]) (JSNum.int 0) = none ∧
    resolveSlot (computeMaps [⟨DiscsField.num 1⟩]) (JSNum.int 101) = none ∧
    resolveSlot (computeMaps [⟨DiscsField.num 1⟩]) (JSNum.int 50) = none ∧
    resolveSlot (computeMaps [⟨DiscsField.num 1⟩]) JSNum.nan = none :=
  ⟨resolveSlot_sentinel _ _ (Or.inr (Or.inl ⟨0, rfl, Or.inl (by decide)⟩)),
   resolveSlot_sentinel _ _ (Or.inr (Or.inl ⟨101, rfl, Or.inr (by decide)⟩)),
   resolveSlot_sentinel _ _ (Or.inr (Or.inr ⟨50, rfl, by decide, by decide,
     by decide⟩)),
   resolveSlot_sentinel _ _ (Or.inl rfl)⟩

-- ## Claim C10: start slots are always assigned and positive

/-- Claim C10: the construction assigns every album a start cursor of at
least 1 (the `albumStartSlot` entry is never left at the default 0, even for
albums that overflow past `MAX_SLOTS`), and consequently
`computePlatzForSong` on an entry with a valid in-range `albumIndex` always
produces a positive slot number, never the null-slot outcome. -/
theorem albumStartSlot_positive (albums : List Album) :
    ((computeMaps albums).albumStartSlot.length = albums.length ∧
      ∀ j st : Nat, (computeMaps albums).albumStartSlot.get? j = some st →
        1 ≤ st) ∧
    (∀ (song : Song) (i : Int), song.albumIndex = JSNum.int i → 0 ≤ i →
      i.toNat < albums.length →
      ∃ s : Nat,
        (computePlatzForSong albums (computeMaps albums).albumStartSlot
          song).slot = some s ∧ 1 ≤ s) := by
  refine ⟨⟨computeMaps_starts_length albums, computeMaps_starts_pos albums⟩, ?_⟩
  intro song i hidx h0 hlen
  have hlen' : i.toNat < (computeMaps albums).albumStartSlot.length := by
    rw [computeMaps_starts_length]; exact hlen
  obtain ⟨st, hst⟩ : ∃ st,
      (computeMaps albums).albumStartSlot.get? i.toNat = some st := by
    cases hq : (computeMaps albums).albumStartSlot.get? i.toNat with
    | none =>
      rw [List.get?_eq_none] at hq
      omega
    | some st => exact ⟨st, rfl⟩
  have hpos : 1 ≤ st := computeMaps_starts_pos albums i.toNat st hst
  simp only [computePlatzForSong, hidx]
  rw [if_neg (by omega), if_neg (by omega)]
  simp only [hst, Option.getD_some]
  rw [MAX_SLOTS_def]
  split_ifs <;> exact ⟨_, rfl, by omega⟩

/-- Witness for C10 on a concrete input: a valid entry for a one-album
sequence resolves to a positive slot. -/
theorem albumStartSlot_positive_witness :
    ∃ s : Nat,
      (computePlatzForSong [⟨DiscsField.num 1⟩]
        (computeMaps [⟨DiscsField.num 1⟩]).albumStartSlot
        ⟨"x", JSNum.int 0, some (JSNum.int 1)⟩).slot = some s ∧ 1 ≤ s :=
  (albumStartSlot_positive [⟨DiscsField.num 1⟩]).2
    ⟨"x", JSNum.int 0, some (JSNum.int 1)⟩ 0 rfl (by decide) (by decide)

-- ## Claim C5: resolution of entries claiming disc 2

/-- Claim C5: for an entry with `disc == 2` and a valid `albumIndex i`, if
the album's clamped disc count is at least 2 the result is
`(min(albumStartSlot[i] + 1, MAX_SLOTS), approximate = false)`; otherwise
(the album occupies fewer physical slots) the result is
`(albumStartSlot[i], approximate = true)` rather than an error. -/
theorem computePlatz_disc2 (albums : List Album) (song : Song) (i : Int)
    (alb : Album) (st : Nat)
    (hidx : song.albumIndex = JSNum.int i)
    (hdisc : song.disc = some (JSNum.int 2)) (h0 : 0 ≤ i)
    (hget : albums.get? i.toNat = some alb)
    (hst : (computeMaps albums).albumStartSlot.get? i.toNat = some st) :
    computePlatzForSong albums (computeMaps albums).albumStartSlot song =
      if 2 ≤ discsCountN alb.discs then
        ⟨some (min (st + 1) MAX_SLOTS), false⟩
      else ⟨some st, true⟩ := by
  have hlen : i.toNat < albums.length := by
    by_contra hc
    rw [List.get?_eq_none.mpr (by omega)] at hget
    exact Option.noConfusion hget
  simp only [computePlatzForSong, hidx, hdisc]
  rw [if_neg (by omega), if_neg (by omega)]
  simp only [hget, hst, Option.map_some', Option.getD_some]
  rw [if_pos trivial]
  by_cases hge : 2 ≤ discsCountN alb.discs
  · rw [if_pos ((jsGE2_iff_discsCountN alb.discs).mpr hge), if_pos hge,
      if_neg (by decide)]
  · rw [if_neg (fun hb => hge ((jsGE2_iff_discsCountN alb.discs).mp hb)),
      if_neg hge, if_neg (by decide)]

/-- Witness for C5: a disc-2 entry against a two-disc first album resolves
exactly to `(start + 1, approximate = false) = (2, false)`. -/
theorem computePlatz_disc2_witness :
    computePlatzForSong [⟨DiscsField.num 2⟩]
      (computeMaps [⟨DiscsField.num 2⟩]).albumStartSlot
      ⟨"x", JSNum.int 0, some (JSNum.int 2)⟩ = ⟨some 2, false⟩ := by
  have h := computePlatz_disc2 [⟨DiscsField.num 2⟩]
    ⟨"x", JSNum.int 0, some (JSNum.int 2)⟩ 0 ⟨DiscsField.num 2⟩ 1
    rfl rfl (by decide) (by decide) (by decide)
  rw [h, if_pos (by decide)]
  decide

-- ## Claim C1: how the `discs` field is clamped, and its slot consumption

/-- Counterexample to claim C1: an album whose `discs` value is the
(truthy) non-numeric string `"abc"` does *not* consume exactly one slot.
`Number("abc" || 1)` is NaN, the `Math.min`/`Math.max` clamp propagates NaN,
and `j < NaN` is false, so the inner loop runs zero times: slot 1 stays
unassigned (`-1`) and the cursor does not advance. -/
theorem discs_nonNumeric_zero_slots :
    (computeMaps [⟨DiscsField.str "abc"⟩]).slotToAlbum 1 = -1 ∧
    (computeMaps [⟨DiscsField.str "abc"⟩]).cursor = 1 ∧
    discsCountN (DiscsField.str "abc") = 0 := by
  refine ⟨?_, ?_, ?_⟩ <;> decide

/-- Claim C1 as amended: a missing or falsy `discs` value (absent, NaN — a
falsy number — or handled below, the empty string, or 0) is treated as 1; a
finite numeric value `n` is clamped to `min 2 (max 1 n)`; but a truthy
non-numeric string coerces to NaN, survives the clamp as NaN, and the album
then consumes zero slots (not one).  The final conjunct ties the clamped
count to the construction: a single album advances the cursor by exactly its
clamped count. -/
theorem discs_clamp_amended :
    discsClampedJS DiscsField.missing = JSNum.int 1 ∧
    discsClampedJS DiscsField.nan = JSNum.int 1 ∧
    (∀ n : Int, discsClampedJS (DiscsField.num n) =
      JSNum.int (min 2 (max 1 n))) ∧
    (∀ s : String, s ≠ "" → jsStringToNumber s = JSNum.nan →
      discsClampedJS (DiscsField.str s) = JSNum.nan ∧
      discsCountN (DiscsField.str s) = 0) ∧
    (∀ (s : String) (n : Int), s ≠ "" → jsStringToNumber s = JSNum.int n →
      discsClampedJS (DiscsField.str s) = JSNum.int (min 2 (max 1 n))) ∧
    (∀ d : DiscsField, (computeMaps [⟨d⟩]).cursor = 1 + discsCountN d) := by
  refine ⟨rfl, rfl, ?_, ?_, ?_, ?_⟩
  · intro n
    by_cases hn : n = 0
    · subst hn; decide
    · simp [discsClampedJS, discsOr1, jsMax1, jsMin2, hn]
  · intro s hne hnan
    simp [discsClampedJS, discsOr1, jsMax1, jsMin2, hne, hnan, discsCountN,
      jsLoopCount]
  · intro s n hne hnum
    simp [discsClampedJS, discsOr1, jsMax1, jsMin2, hne, hnum]
  · intro d
    have hle := discsCountN_le_two d
    show (innerLoop 0 (discsCountN d) (fun _ => -1) 1).2 = 1 + discsCountN d
    rw [innerLoop_snd, MAX_SLOTS_def]
    rw [if_pos (by omega)]
    omega

/-- Witness for the amended C1: the concrete non-numeric string `"abc"`
coerces to NaN and yields a clamp of NaN with zero consumed slots. -/
theorem discs_clamp_amended_witness :
    discsClampedJS (DiscsField.str "abc") = JSNum.nan ∧
    discsCountN (DiscsField.str "abc") = 0 ∧
    discsClampedJS (DiscsField.num 5) = JSNum.int (min 2 (max 1 5)) :=
  ⟨(discs_clamp_amended.2.2.2.1 "abc" (by decide) (by decide)).1,
   (discs_clamp_amended.2.2.2.1 "abc" (by decide) (by decide)).2,
   discs_clamp_amended.2.2.1 5⟩

-- ## Text normalization (`norm`)

/-- Is the character a combining diacritical mark (U+0300–U+036F), the
class removed by `.replace(/\p{Diacritic}/gu, '')` on the decompositions
occurring here? -/
def isDiacritic (c : Char) : Bool :=
  decide (768 ≤ c.toNat ∧ c.toNat ≤ 879)

/-- Does the character survive `.replace(/[^a-z0-9 ]/g, ' ')`? -/
def isKept (c : Char) : Bool :=
  decide ((97 ≤ c.toNat ∧ c.toNat ≤ 122) ∨ (48 ≤ c.toNat ∧ c.toNat ≤ 57) ∨
    c.toNat = 32)

/-- NFKD decompositions of the accented Latin letters relevant to the
catalog (each maps to its base letter followed by a combining mark).
Characters outside the table are taken to be their own decomposition. -/
def nfkdTable : List (Char × List Char) :=
  [('à', ['a', '̀']), ('á', ['a', '́']), ('â', ['a', '̂']),
   ('ã', ['a', '̃']), ('ä', ['a', '̈']), ('å', ['a', '̊']),
   ('ç', ['c', '̧']), ('è', ['e', '̀']), ('é', ['e', '́']),
   ('ê', ['e', '̂']), ('ë', ['e', '̈']), ('ì', ['i', '̀']),
   ('í', ['i', '́']), ('î', ['i', '̂']), ('ï', ['i', '̈']),
   ('ñ', ['n', '̃']), ('ò', ['o', '̀']), ('ó', ['o', '́']),
   ('ô', ['o', '̂']), ('õ', ['o', '̃']), ('ö', ['o', '̈']),
   ('ù', ['u', '̀']), ('ú', ['u', '́']), ('û', ['u', '̂']),
   ('ü', ['u', '̈']), ('ý', ['y', '́']),
   ('À', ['A', '̀']), ('Ä', ['A', '̈']), ('É', ['E', '́']),
   ('Ö', ['O', '̈']), ('Ü', ['U', '̈'])]

/-- Model of `.normalize('NFKD')` on one character. -/
def nfkdChar (c : Char) : List Char :=
  match nfkdTable.find? (fun p => p.1 == c) with
  | some p => p.2
  | none => [c]

/-- One pass of `.replace(/\s+/g, ' ')`: collapse each run of spaces to a
single space (the boolean records whether the previous character of the
run was a space). -/
def collapseWs : List Char → Bool → List Char
  | [], _ => []
  | c :: rest, prevSpace =>
    if c = ' ' then
      if prevSpace then collapseWs rest true
      else ' ' :: collapseWs rest true
    else c :: collapseWs rest false

/-- Remove trailing spaces (the right half of `.trim()`). -/
def trimRight : List Char → List Char
  | [] => []
  | c :: rest =>
    let r := trimRight rest
    if c = ' ' ∧ r = [] then [] else c :: r

/-- The character-level pipeline of `norm`: lowercase, NFKD-decompose,
strip combining marks, replace everything outside `[a-z0-9 ]` by a space,
collapse whitespace runs, and trim both ends. -/
def normChars (l : List Char) : List Char :=
  let lowered := l.map Char.toLower
  let decomposed := lowered.flatMap nfkdChar
  let stripped := decomposed.filter (fun c => !(isDiacritic c))
  let replaced := stripped.map (fun c => if isKept c then c else ' ')
  let collapsed := collapseWs replaced false
  trimRight (collapsed.dropWhile (fun c => c = ' '))

/-- The function `norm(s)` from the source. -/
def norm (s : String) : String :=
  String.mk (normChars s.data)

-- ## Shape invariants of `norm`'s output

/-- No two adjacent spaces. -/
def noDS : List Char → Prop
  | [] => True
  | [_] => True
  | a :: b :: rest => ¬(a = ' ' ∧ b = ' ') ∧ noDS (b :: rest)

/-- The head, if any, is not a space. -/
def headNotSpace : List Char → Prop
  | [] => True
  | c :: _ => c ≠ ' '

/-- The last character, if any, is not a space. -/
def lastNotSpace : List Char → Prop
  | [] => True
  | [c] => c ≠ ' '
  | _ :: b :: rest => lastNotSpace (b :: rest)

theorem noDS_cons (a : Char) (l : List Char) :
    noDS (a :: l) ↔
      (∀ b, l.head? = some b → ¬(a = ' ' ∧ b = ' ')) ∧ noDS l := by
  cases l with
  | nil => simp [noDS]
  | cons b rest =>
    simp only [noDS, List.head?_cons]
    constructor
    · rintro ⟨h1, h2⟩
      exact ⟨fun x hx => by injection hx with hx; subst hx; exact h1, h2⟩
    · rintro ⟨h1, h2⟩
      exact ⟨h1 b rfl, h2⟩

theorem lastNotSpace_cons (a : Char) (l : List Char) (h : lastNotSpace l)
    (hne : l = [] → a ≠ ' ') : lastNotSpace (a :: l) := by
  cases l with
  | nil => exact hne rfl
  | cons b rest => exact h

-- ## Properties of `collapseWs`

theorem collapseWs_kept :
    ∀ (l : List Char) (b : Bool), (∀ c ∈ l, isKept c = true) →
      ∀ c ∈ collapseWs l b, isKept c = true := by
  intro l
  induction l with
  | nil => intro b _ c hc; simp [collapseWs] at hc
  | cons a rest ih =>
    intro b hall c hc
    have ha := hall a (by simp)
    have hrest : ∀ x ∈ rest, isKept x = true := fun x hx => hall x (by simp [hx])
    by_cases hsp : a = ' '
    · rw [collapseWs, if_pos hsp] at hc
      cases b with
      | true => exact ih true hrest c hc
      | false =>
        simp only [Bool.false_eq_true, if_false] at hc
        rcases List.mem_cons.mp hc with rfl | hc2
        · decide
        · exact ih true hrest c hc2
    · rw [collapseWs, if_neg hsp] at hc
      rcases List.mem_cons.mp hc with rfl | hc2
      · exact ha
      · exact ih false hrest c hc2

theorem collapseWs_noDS :
    ∀ (l : List Char) (b : Bool),
      noDS (collapseWs l b) ∧
        (b = true → headNotSpace (collapseWs l b)) := by
  intro l
  induction l with
  | nil => intro b; exact ⟨trivial, fun _ => trivial⟩
  | cons a rest ih =>
    intro b
    by_cases hsp : a = ' '
    · subst hsp
      rw [collapseWs, if_pos rfl]
      cases b with
      | true => simpa using ih true
      | false =>
        simp only [Bool.false_eq_true, if_false]
        refine ⟨?_, fun hb => by simp at hb⟩
        rw [noDS_cons]
        refine ⟨?_, (ih true).1⟩
        intro x hx hcontra
        have hh := (ih true).2 rfl
        cases hcoll : collapseWs rest true with
        | nil => rw [hcoll] at hx; simp at hx
        | cons y ys =>
          rw [hcoll] at hx
          injection hx with hx
          subst hx
          rw [hcoll] at hh
          exact hh hcontra.2
    · rw [collapseWs, if_neg hsp]
      refine ⟨?_, fun _ => hsp⟩
      rw [noDS_cons]
      refine ⟨?_, (ih false).1⟩
      intro x _ hcontra
      exact hsp hcontra.1

theorem collapseWs_eq_self :
    ∀ (l : List Char) (b : Bool), noDS l →
      (b = true → headNotSpace l) → collapseWs l b = l := by
  intro l
  induction l with
  | nil => intro b _ _; rfl
  | cons a rest ih =>
    intro b hds hh
    by_cases hsp : a = ' '
    · subst hsp
      have hb : b = false := by
        cases b with
        | false => rfl
        | true => exact absurd rfl (hh rfl)
      subst hb
      rw [collapseWs, if_pos rfl]
      simp only [Bool.false_eq_true, if_false, List.cons.injEq, true_and]
      have hds' : noDS rest := ((noDS_cons _ _).mp hds).2
      have hh' : headNotSpace rest := by
        cases rest with
        | nil => trivial
        | cons y ys =>
          have := ((noDS_cons _ _).mp hds).1 y rfl
          intro hy
          exact this ⟨rfl, hy⟩
      exact ih true hds' (fun _ => hh')
    · rw [collapseWs, if_neg hsp]
      have hds' : noDS rest := ((noDS_cons _ _).mp hds).2
      rw [ih false hds' (by intro h; exact absurd h (by simp))]

-- ## Properties of `trimRight` and `dropWhile`

theorem trimRight_nil : trimRight [] = [] := rfl

theorem trimRight_cons (c : Char) (rest : List Char) :
    trimRight (c :: rest) =
      if c = ' ' ∧ trimRight rest = [] then [] else c :: trimRight rest := rfl

theorem trimRight_subset :
    ∀ (l : List Char) (c : Char), c ∈ trimRight l → c ∈ l := by
  intro l
  induction l with
  | nil => intro c hc; simp [trimRight_nil] at hc
  | cons a rest ih =>
    intro c hc
    rw [trimRight_cons] at hc
    split at hc
    · simp at hc
    · rcases List.mem_cons.mp hc with rfl | hc2
      · simp
      · simp [ih c hc2]

theorem trimRight_head :
    ∀ (l : List Char) (c : Char), (trimRight l).head? = some c →
      l.head? = some c := by
  intro l
  induction l with
  | nil => intro c hc; simp [trimRight_nil] at hc
  | cons a rest _ =>
    intro c hc
    rw [trimRight_cons] at hc
    split at hc
    · simp at hc
    · simpa using hc

theorem trimRight_lastNotSpace : ∀ l : List Char, lastNotSpace (trimRight l) := by
  intro l
  induction l with
  | nil => trivial
  | cons a rest ih =>
    rw [trimRight_cons]
    split
    · trivial
    · rename_i hcond
      refine lastNotSpace_cons a (trimRight rest) ih ?_
      intro hnil ha
      exact hcond ⟨ha, hnil⟩

theorem trimRight_noDS : ∀ l : List Char, noDS l → noDS (trimRight l) := by
  intro l
  induction l with
  | nil => intro _; trivial
  | cons a rest ih =>
    intro hds
    have hds' : noDS rest := ((noDS_cons _ _).mp hds).2
    rw [trimRight_cons]
    split
    · trivial
    · rw [noDS_cons]
      refine ⟨?_, ih hds'⟩
      intro b hb
      exact ((noDS_cons _ _).mp hds).1 b (trimRight_head rest b hb)

theorem trimRight_eq_self :
    ∀ l : List Char, lastNotSpace l → trimRight l = l := by
  intro l
  induction l with
  | nil => intro _; rfl
  | cons a rest ih =>
    intro hl
    cases rest with
    | nil =>
      rw [trimRight_cons, if_neg (fun hcontra => hl hcontra.1)]
      rfl
    | cons b rest' =>
      have hr : trimRight (b :: rest') = b :: rest' := ih hl
      rw [trimRight_cons, hr]
      rw [if_neg (by simp)]

theorem trimRight_headNotSpace (l : List Char) (h : headNotSpace l) :
    headNotSpace (trimRight l) := by
  cases hc : trimRight l with
  | nil => trivial
  | cons c cs =>
    have : l.head? = some c := trimRight_head l c (by rw [hc]; rfl)
    cases l with
    | nil => simp at this
    | cons a rest =>
      simp only [List.head?_cons, Option.some.injEq] at this
      subst this
      exact h

theorem dropWhileSpace_subset :
    ∀ (l : List Char) (c : Char),
      c ∈ l.dropWhile (fun x => x = ' ') → c ∈ l := by
  intro l
  induction l with
  | nil => intro c hc; simp at hc
  | cons a rest ih =>
    intro c hc
    rw [List.dropWhile_cons] at hc
    split at hc
    · simp [ih c hc]
    · exact hc

theorem dropWhileSpace_head :
    ∀ l : List Char, headNotSpace (l.dropWhile (fun x => x = ' ')) := by
  intro l
  induction l with
  | nil => trivial
  | cons a rest ih =>
    rw [List.dropWhile_cons]
    split
    · exact ih
    · rename_i hcond
      simp only [decide_eq_true_eq] at hcond
      exact hcond

theorem dropWhileSpace_noDS :
    ∀ l : List Char, noDS l → noDS (l.dropWhile (fun x => x = ' ')) := by
  intro l
  induction l with
  | nil => intro _; trivial
  | cons a rest ih =>
    intro hds
    rw [List.dropWhile_cons]
    split
    · exact ih ((noDS_cons _ _).mp hds).2
    · exact hds

theorem dropWhileSpace_eq_self (l : List Char) (h : headNotSpace l) :
    l.dropWhile (fun x => x = ' ') = l := by
  cases l with
  | nil => rfl
  | cons a rest =>
    rw [List.dropWhile_cons]
    rw [if_neg (by simpa using h)]

-- ## Characters surviving the replacement step are fixed by every stage

theorem kept_toLower (c : Char) (h : isKept c = true) : Char.toLower c = c := by
  simp only [isKept, decide_eq_true_eq] at h
  unfold Char.toLower
  rw [if_neg (by omega)]

theorem nfkdTable_keys : ∀ p ∈ nfkdTable, 192 ≤ p.1.toNat := by decide

theorem kept_nfkd (c : Char) (h : isKept c = true) : nfkdChar c = [c] := by
  simp only [isKept, decide_eq_true_eq] at h
  unfold nfkdChar
  have hfind : nfkdTable.find? (fun p => p.1 == c) = none := by
    rw [List.find?_eq_none]
    intro p hp
    have hk := nfkdTable_keys p hp
    simp only [beq_iff_eq]
    intro hcontra
    rw [hcontra] at hk
    omega
  rw [hfind]

theorem kept_not_diacritic (c : Char) (h : isKept c = true) :
    (!(isDiacritic c)) = true := by
  simp only [isKept, decide_eq_true_eq] at h
  simp only [isDiacritic, Bool.not_eq_true', decide_eq_false_iff_not]
  omega

theorem map_eq_self_of (f : Char → Char) :
    ∀ l : List Char, (∀ c ∈ l, f c = c) → l.map f = l := by
  intro l
  induction l with
  | nil => intro _; rfl
  | cons a rest ih =>
    intro h
    rw [List.map_cons, h a (by simp), ih (fun c hc => h c (by simp [hc]))]

theorem flatMap_eq_self_of (g : Char → List Char) :
    ∀ l : List Char, (∀ c ∈ l, g c = [c]) → l.flatMap g = l := by
  intro l
  induction l with
  | nil => intro _; rfl
  | cons a rest ih =>
    intro h
    rw [List.flatMap_cons, h a (by simp),
      ih (fun c hc => h c (by simp [hc])), List.singleton_append]

theorem filter_eq_self_of (p : Char → Bool) :
    ∀ l : List Char, (∀ c ∈ l, p c = true) → l.filter p = l := by
  intro l
  induction l with
  | nil => intro _; rfl
  | cons a rest ih =>
    intro h
    rw [List.filter_cons, if_pos (h a (by simp)),
      ih (fun c hc => h c (by simp [hc]))]

-- ## Shape of `normChars` output

theorem normChars_kept (l : List Char) :
    ∀ c ∈ normChars l, isKept c = true := by
  intro c hc
  simp only [normChars] at hc
  have h1 := trimRight_subset _ c hc
  have h2 := dropWhileSpace_subset _ c h1
  refine collapseWs_kept _ false ?_ c h2
  intro x hx
  rcases List.mem_map.mp hx with ⟨y, _, rfl⟩
  by_cases hk : isKept y = true
  · rw [if_pos hk]; exact hk
  · rw [if_neg hk]; decide

theorem normChars_noDS (l : List Char) : noDS (normChars l) := by
  simp only [normChars]
  exact trimRight_noDS _ (dropWhileSpace_noDS _ (collapseWs_noDS _ false).1)

theorem normChars_head (l : List Char) : headNotSpace (normChars l) := by
  simp only [normChars]
  exact trimRight_headNotSpace _ (dropWhileSpace_head _)

theorem normChars_last (l : List Char) : lastNotSpace (normChars l) := by
  simp only [normChars]
  exact trimRight_lastNotSpace _

theorem normChars_fixed (t : List Char) (hkept : ∀ c ∈ t, isKept c = true)
    (hds : noDS t) (hh : headNotSpace t) (hl : lastNotSpace t) :
    normChars t = t := by
  have h1 : t.map Char.toLower = t :=
    map_eq_self_of _ t (fun c hc => kept_toLower c (hkept c hc))
  have h2 : t.flatMap nfkdChar = t :=
    flatMap_eq_self_of _ t (fun c hc => kept_nfkd c (hkept c hc))
  have h3 : t.filter (fun c => !(isDiacritic c)) = t :=
    filter_eq_self_of _ t (fun c hc => kept_not_diacritic c (hkept c hc))
  have h4 : t.map (fun c => if isKept c then c else ' ') = t :=
    map_eq_self_of _ t (fun c hc => if_pos (hkept c hc))
  simp only [normChars, h1, h2, h3, h4]
  rw [collapseWs_eq_self t false hds (fun h => Bool.noConfusion h),
    dropWhileSpace_eq_self t hh, trimRight_eq_self t hl]

/-- Claim C8: `Normalize` is idempotent:
`Normalize(Normalize(s)) == Normalize(s)` for every string. -/
theorem norm_idempotent (s : String) : norm (norm s) = norm s := by
  have key : normChars (normChars s.data) = normChars s.data :=
    normChars_fixed (normChars s.data) (normChars_kept _) (normChars_noDS _)
      (normChars_head _) (normChars_last _)
  show String.mk (normChars (normChars s.data)) = String.mk (normChars s.data)
  rw [key]

-- ## Fuzzy scoring

/-- Does `needle` occur as a contiguous substring of `hay`
(`hay.includes(needle)`)? -/
def listIsInfix : List Char → List Char → Bool
  | needle, [] => needle.isEmpty
  | needle, c :: rest => needle.isPrefixOf (c :: rest) || listIsInfix needle rest

/-- Model of `hay.includes(needle)` on strings. -/
def strIncludes (needle hay : String) : Bool :=
  listIsInfix needle.data hay.data

/-- Model of `q.split(' ')` (each occurrence of a space separates tokens; empty
tokens are kept, as JavaScript does). -/
def splitSpace : List Char → List Char → List (List Char)
  | [], acc => [acc.reverse]
  | c :: rest, acc =>
    if c = ' ' then acc.reverse :: splitSpace rest []
    else splitSpace rest (c :: acc)

/-- Model of `fuzzyScore(query, candidate)`: 0 when either normalized string is
empty, the fixed constant 3 on an exact normalized match, otherwise
substring bonus (+1) plus token-set Jaccard overlap (union clamped to at
least 1 by `|| 1`) plus a prefix bonus (+0.25).  Scores are exact
rationals. -/
def fuzzyScore (query candidate : String) : Rat :=
  let q := norm query
  let c := norm candidate
  if q = "" ∨ c = "" then 0
  else if q = c then 3
  else
    let sub : Rat := if strIncludes q c ∨ strIncludes c q then 1 else 0
    let tq := (splitSpace q.data []).toFinset
    let tc := (splitSpace c.data []).toFinset
    let inter := (tq ∩ tc).card
    let u := (tq ∪ tc).card
    let union := if u = 0 then 1 else u
    let score := sub + mkRat inter union
    if q.data.isPrefixOf c.data then score + mkRat 1 4 else score

theorem mkRat_eq_cast_div (n d : Nat) : mkRat n d = (n : Rat) / d := by
  rw [Rat.mkRat_eq_div]
  norm_num

theorem jaccard_le_one (tq tc : Finset (List Char)) :
    mkRat ((tq ∩ tc).card : Int)
      (if (tq ∪ tc).card = 0 then 1 else (tq ∪ tc).card) ≤ 1 := by
  have hsub : (tq ∩ tc).card ≤ (tq ∪ tc).card :=
    Finset.card_le_card Finset.inter_subset_union
  rw [mkRat_eq_cast_div]
  by_cases hu : (tq ∪ tc).card = 0
  · rw [if_pos hu]
    have hz : (tq ∩ tc).card = 0 := by omega
    rw [hz]
    norm_num
  · rw [if_neg hu]
    rw [div_le_one (by exact_mod_cast Nat.pos_of_ne_zero hu)]
    exact_mod_cast hsub

/-- Claim C3: `Score(q, c) = 3` exactly when the normalized strings are
equal and non-empty, and every non-exact score is strictly below 3 (so an
exact match always outranks any combination of substring, Jaccard and
prefix contributions). -/
theorem fuzzyScore_exact_iff (q c : String) :
    (fuzzyScore q c = 3 ↔ norm q = norm c ∧ norm q ≠ "") ∧
    (norm q ≠ norm c → fuzzyScore q c < 3) := by
  have hbody : ∀ hne : ¬(norm q = "" ∨ norm c = ""), ∀ hne2 : norm q ≠ norm c,
      fuzzyScore q c < 3 := by
    intro hne hne2
    rw [fuzzyScore]
    rw [if_neg hne, if_neg hne2]
    dsimp only
    have hjac := jaccard_le_one ((splitSpace (norm q).data []).toFinset)
      ((splitSpace (norm c).data []).toFinset)
    have hsub : (if strIncludes (norm q) (norm c) ∨
        strIncludes (norm c) (norm q) then (1 : Rat) else 0) ≤ 1 := by
      split <;> norm_num
    have hquarter : mkRat 1 4 = (1 : Rat) / 4 := by
      rw [Rat.mkRat_eq_div]
      norm_num
    split
    · rw [hquarter]
      linarith
    · linarith
  constructor
  · constructor
    · intro h3
      by_cases hne : norm q = "" ∨ norm c = ""
      · rw [fuzzyScore, if_pos hne] at h3
        norm_num at h3
      · by_cases heq : norm q = norm c
        · refine ⟨heq, ?_⟩
          intro hq
          exact hne (Or.inl hq)
        · exact absurd h3 (ne_of_lt (hbody hne heq))
    · rintro ⟨heq, hq⟩
      have hne : ¬(norm q = "" ∨ norm c = "") := by
        rintro (h | h)
        · exact hq h
        · rw [heq] at hq; exact hq h
      rw [fuzzyScore, if_neg hne, if_pos heq]
  · intro hne2
    by_cases hne : norm q = "" ∨ norm c = ""
    · rw [fuzzyScore, if_pos hne]
      norm_num
    · exact hbody hne hne2

/-- Witness for C3: `"Hello, World!"` and `"  hello world "` normalize
identically and score exactly 3, while distinct one-letter titles score
strictly below 3. -/
theorem fuzzyScore_exact_iff_witness :
    fuzzyScore "Hello, World!" "  hello world " = 3 ∧
    fuzzyScore "a" "b" < 3 :=
  ⟨(fuzzyScore_exact_iff "Hello, World!" "  hello world ").1.mpr
    ⟨by decide, by decide⟩,
   (fuzzyScore_exact_iff "a" "b").2 (by decide)⟩

-- ## Best-match selection

/-- The loop of `findBestSong`: `let best = null, bestScore = 0; for (const
s of SONGS) { const sc = fuzzyScore(query, s?.n || ''); if (sc > bestScore)
{ bestScore = sc; best = s; } }`. -/
def findLoop (query : String) : List Song → Option Song × Rat →
    Option Song × Rat
  | [], acc => acc
  | s :: rest, acc =>
    let sc := fuzzyScore query s.n
    findLoop query rest (if acc.2 < sc then (some s, sc) else acc)

/-- Model of `findBestSong(query)`: run the loop, then apply the `> 0.15` cut-off. -/
def findBestSong (songs : List Song) (query : String) : Option Song :=
  let r := findLoop query songs (none, 0)
  if mkRat 3 20 < r.2 then r.1 else none

theorem findLoop_nil (query : String) (acc : Option Song × Rat) :
    findLoop query [] acc = acc := rfl

theorem findLoop_cons (query : String) (s : Song) (rest : List Song)
    (acc : Option Song × Rat) :
    findLoop query (s :: rest) acc =
      findLoop query rest
        (if acc.2 < fuzzyScore query s.n then (some s, fuzzyScore query s.n)
         else acc) := rfl

theorem findLoop_le (query : String) :
    ∀ (l : List Song) (acc : Option Song × Rat),
      acc.2 ≤ (findLoop query l acc).2 := by
  intro l
  induction l with
  | nil => intro acc; exact le_refl _
  | cons s rest ih =>
    intro acc
    rw [findLoop_cons]
    by_cases h : acc.2 < fuzzyScore query s.n
    · rw [if_pos h]
      exact le_trans (le_of_lt h) (ih (some s, fuzzyScore query s.n))
    · rw [if_neg h]
      exact ih acc

theorem findLoop_none (query : String) :
    ∀ (l : List Song) (acc : Option Song × Rat),
      (findLoop query l acc).1 = none →
      acc.1 = none ∧ (findLoop query l acc).2 = acc.2 := by
  intro l
  induction l with
  | nil => intro acc h; exact ⟨h, rfl⟩
  | cons s rest ih =>
    intro acc h
    rw [findLoop_cons] at h ⊢
    by_cases hup : acc.2 < fuzzyScore query s.n
    · rw [if_pos hup] at h ⊢
      have := (ih _ h).1
      simp at this
    · rw [if_neg hup] at h ⊢
      exact ih acc h

theorem findLoop_le_iff (query : String) (x : Rat) :
    ∀ (l : List Song) (acc : Option Song × Rat),
      (findLoop query l acc).2 ≤ x ↔
        acc.2 ≤ x ∧ ∀ s ∈ l, fuzzyScore query s.n ≤ x := by
  intro l
  induction l with
  | nil =>
    intro acc
    simp [findLoop_nil]
  | cons s rest ih =>
    intro acc
    rw [findLoop_cons]
    by_cases hup : acc.2 < fuzzyScore query s.n
    · rw [if_pos hup, ih]
      constructor
      · rintro ⟨h1, h2⟩
        exact ⟨le_trans (le_of_lt hup) h1, fun t ht => by
          rcases List.mem_cons.mp ht with rfl | ht2
          · exact h1
          · exact h2 t ht2⟩
      · rintro ⟨h1, h2⟩
        exact ⟨h2 s (by simp), fun t ht => h2 t (by simp [ht])⟩
    · rw [if_neg hup, ih]
      constructor
      · rintro ⟨h1, h2⟩
        exact ⟨h1, fun t ht => by
          rcases List.mem_cons.mp ht with rfl | ht2
          · exact le_trans (le_of_not_lt hup) h1
          · exact h2 t ht2⟩
      · rintro ⟨h1, h2⟩
        exact ⟨h1, fun t ht => h2 t (by simp [ht])⟩

/-- Claim C6: `findBestSong` reports "no match" exactly when every catalog
entry scores at most 0.15 (equivalently, the maximum score is ≤ 0.15); in
particular, for a one-entry catalog the entry is returned exactly when its
score is strictly above 0.15. -/
theorem findBestSong_no_match (songs : List Song) (query : String) :
    (findBestSong songs query = none ↔
      ∀ s ∈ songs, fuzzyScore query s.n ≤ mkRat 3 20) ∧
    (∀ s : Song, findBestSong [s] query =
      if mkRat 3 20 < fuzzyScore query s.n then some s else none) := by
  constructor
  · constructor
    · intro h
      by_cases ht : mkRat 3 20 < (findLoop query songs (none, 0)).2
      · rw [findBestSong] at h
        simp only [ht, if_pos] at h
        have h2 := (findLoop_none query songs (none, 0) h).2
        rw [h2] at ht
        norm_num at ht
      · have := (findLoop_le_iff query (mkRat 3 20) songs (none, 0)).mp
          (le_of_not_lt ht)
        exact this.2
    · intro hall
      have hle : (findLoop query songs (none, 0)).2 ≤ mkRat 3 20 :=
        (findLoop_le_iff query (mkRat 3 20) songs (none, 0)).mpr
          ⟨by norm_num, hall⟩
      rw [findBestSong]
      simp only [not_lt.mpr hle, if_neg, if_false]
  · intro s
    by_cases ht : mkRat 3 20 < fuzzyScore query s.n
    · rw [if_pos ht]
      have h0 : (0 : Rat) < fuzzyScore query s.n :=
        lt_trans (by norm_num) ht
      rw [findBestSong, findLoop_cons, findLoop_nil]
      rw [if_pos (show ((none : Option Song), (0 : Rat)).2 <
        fuzzyScore query s.n from h0)]
      rw [if_pos ht]
    · rw [if_neg ht]
      rw [findBestSong, findLoop_cons, findLoop_nil]
      by_cases h0 : ((none : Option Song), (0 : Rat)).2 < fuzzyScore query s.n
      · rw [if_pos h0, if_neg ht]
      · rw [if_neg h0]
        rw [if_neg (by norm_num)]

/-- Witness for C6: a one-entry catalog whose entry matches the query
exactly is returned (score 3 > 0.15), and a one-entry catalog scoring 0
yields no match. -/
theorem findBestSong_no_match_witness :
    findBestSong [⟨"ab", JSNum.int 0, none⟩] "ab" =
      some ⟨"ab", JSNum.int 0, none⟩ ∧
    findBestSong [⟨"zz", JSNum.int 0, none⟩] "ab" = none := by
  constructor
  · have h := (findBestSong_no_match [⟨"ab", JSNum.int 0, none⟩] "ab").2
      ⟨"ab", JSNum.int 0, none⟩
    rw [h, if_pos (by decide)]
  · exact (findBestSong_no_match [⟨"zz", JSNum.int 0, none⟩] "ab").1.mpr
      (by with_unfolding_all decide)

theorem findLoop_snd_fixed (query : String) :
    ∀ (l : List Song) (acc : Option Song × Rat),
      (findLoop query l acc).2 = acc.2 → (findLoop query l acc).1 = acc.1 := by
  intro l
  induction l with
  | nil => intro acc _; rfl
  | cons s rest ih =>
    intro acc h
    rw [findLoop_cons] at h ⊢
    by_cases hup : acc.2 < fuzzyScore query s.n
    · rw [if_pos hup] at h ⊢
      have hle := findLoop_le query rest (some s, fuzzyScore query s.n)
      rw [h] at hle
      exact absurd hle (not_le.mpr hup)
    · rw [if_neg hup] at h ⊢
      exact ih acc h

theorem findLoop_first_max (query : String) :
    ∀ (l : List Song) (b : Option Song) (m : Rat),
      m < (findLoop query l (b, m)).2 →
      (findLoop query l (b, m)).1 =
        l.find? (fun s =>
          decide (fuzzyScore query s.n = (findLoop query l (b, m)).2)) := by
  intro l
  induction l with
  | nil =>
    intro b m h
    rw [findLoop_nil] at h
    exact absurd h (lt_irrefl m)
  | cons s rest ih =>
    intro b m h
    rw [findLoop_cons] at h ⊢
    by_cases hup : ((b, m) : Option Song × Rat).2 < fuzzyScore query s.n
    · rw [if_pos hup] at h ⊢
      have hle := findLoop_le query rest (some s, fuzzyScore query s.n)
      rcases eq_or_lt_of_le hle with heq | hlt
    -- `heq`: no later entry beat `s`: the final best is `s` itself.
      · rw [findLoop_snd_fixed query rest _ heq.symm]
        rw [List.find?_cons_of_pos]
        simp only [decide_eq_true_eq]
        exact heq
      · rw [ih (some s) (fuzzyScore query s.n) hlt]
        rw [List.find?_cons_of_neg]
        simp only [decide_eq_true_eq]
        exact ne_of_lt hlt
    · rw [if_neg hup] at h ⊢
      rw [ih b m h]
      rw [List.find?_cons_of_neg]
      simp only [decide_eq_true_eq]
      have hs : fuzzyScore query s.n ≤ m := le_of_not_lt hup
      intro hcontra
      rw [hcontra] at hs
      exact absurd h (not_lt.mpr hs)

/-- Claim C7: the loop's running score is the maximum over the catalog, and
when it clears the threshold `findBestSong` returns the *first* entry in
catalog order achieving that maximum — a later entry with an equal (or
lower) score never replaces the current best. -/
theorem findBestSong_first_tie (songs : List Song) (query : String) :
    (∀ s ∈ songs, fuzzyScore query s.n ≤ (findLoop query songs (none, 0)).2) ∧
    (mkRat 3 20 < (findLoop query songs (none, 0)).2 →
      findBestSong songs query =
        songs.find? (fun s =>
          decide (fuzzyScore query s.n =
            (findLoop query songs (none, 0)).2))) := by
  constructor
  · exact ((findLoop_le_iff query _ songs (none, 0)).mp (le_refl _)).2
  · intro h
    rw [findBestSong]
    simp only [h, if_pos]
    have h0 : (0 : Rat) < (findLoop query songs (none, 0)).2 :=
      lt_trans (by norm_num) h
    exact findLoop_first_max query songs none 0 h0

/-- Witness for C7: two entries with the same title tie at the maximum
score; the first one is returned. -/
theorem findBestSong_first_tie_witness :
    findBestSong [⟨"ab", JSNum.int 0, none⟩, ⟨"ab", JSNum.int 1, none⟩]
      "ab" = some ⟨"ab", JSNum.int 0, none⟩ := by
  have h := (findBestSong_first_tie
    [⟨"ab", JSNum.int 0, none⟩, ⟨"ab", JSNum.int 1, none⟩] "ab").2 (by decide)
  rw [h]
  decide
